import Mathlib

/-!
Verification of the lead-generation chat application's extraction-and-merge
pipeline (`streamlit_app.py`): the fenced-JSON lead extractor
(`extract_lead_data`), the registry upsert (`update_lead_info`), the CSV
export (`save_leads_to_csv`) and the chat display truncation, embedded
shallowly over `List Char` with Python `dict`s as ordered association lists.
-/

set_option maxHeartbeats 1000000

/-- JSON values as produced by `json.loads`.  Numbers are represented
exactly as a decimal mantissa/exponent pair (`m * 10 ^ e`); objects are
insertion-ordered association lists, as Python dicts are. -/
inductive Json where
  | null : Json
  | bool (b : Bool) : Json
  | num (m : Int) (e : Int) : Json
  | str (s : String) : Json
  | arr (xs : List Json) : Json
  | obj (fields : List (String × Json)) : Json

mutual

/-- Structural boolean equality of JSON values (kernel-computable). -/
def Json.beq : Json → Json → Bool
  | .null, .null => true
  | .bool a, .bool b => a == b
  | .num m e, .num m' e' => m == m' && e == e'
  | .str a, .str b => a == b
  | .arr xs, .arr ys => Json.beqList xs ys
  | .obj fs, .obj gs => Json.beqFields fs gs
  | _, _ => false
  termination_by structural a _ => a

/-- Boolean equality of JSON value lists. -/
def Json.beqList : List Json → List Json → Bool
  | [], [] => true
  | x :: xs, y :: ys => Json.beq x y && Json.beqList xs ys
  | _, _ => false
  termination_by structural xs _ => xs

/-- Boolean equality of JSON object field lists. -/
def Json.beqFields : List (String × Json) → List (String × Json) → Bool
  | [], [] => true
  | (k, v) :: fs, (k', v') :: gs => k == k' && Json.beq v v' && Json.beqFields fs gs
  | _, _ => false
  termination_by structural fs _ => fs

end

mutual

theorem Json.beq_iff : ∀ a b : Json, (Json.beq a b = true) ↔ a = b
  | .null, .null => by simp [Json.beq]
  | .null, .bool _ => by simp [Json.beq]
  | .null, .num _ _ => by simp [Json.beq]
  | .null, .str _ => by simp [Json.beq]
  | .null, .arr _ => by simp [Json.beq]
  | .null, .obj _ => by simp [Json.beq]
  | .bool _, .null => by simp [Json.beq]
  | .bool a, .bool b => by simp [Json.beq]
  | .bool _, .num _ _ => by simp [Json.beq]
  | .bool _, .str _ => by simp [Json.beq]
  | .bool _, .arr _ => by simp [Json.beq]
  | .bool _, .obj _ => by simp [Json.beq]
  | .num _ _, .null => by simp [Json.beq]
  | .num _ _, .bool _ => by simp [Json.beq]
  | .num m e, .num m' e' => by simp [Json.beq]
  | .num _ _, .str _ => by simp [Json.beq]
  | .num _ _, .arr _ => by simp [Json.beq]
  | .num _ _, .obj _ => by simp [Json.beq]
  | .str _, .null => by simp [Json.beq]
  | .str _, .bool _ => by simp [Json.beq]
  | .str _, .num _ _ => by simp [Json.beq]
  | .str a, .str b => by simp [Json.beq]
  | .str _, .arr _ => by simp [Json.beq]
  | .str _, .obj _ => by simp [Json.beq]
  | .arr _, .null => by simp [Json.beq]
  | .arr _, .bool _ => by simp [Json.beq]
  | .arr _, .num _ _ => by simp [Json.beq]
  | .arr _, .str _ => by simp [Json.beq]
  | .arr xs, .arr ys => by
      rw [show Json.beq (Json.arr xs) (Json.arr ys) = Json.beqList xs ys from rfl,
        Json.beqList_iff xs ys]
      simp
  | .arr _, .obj _ => by simp [Json.beq]
  | .obj _, .null => by simp [Json.beq]
  | .obj _, .bool _ => by simp [Json.beq]
  | .obj _, .num _ _ => by simp [Json.beq]
  | .obj _, .str _ => by simp [Json.beq]
  | .obj _, .arr _ => by simp [Json.beq]
  | .obj fs, .obj gs => by
      rw [show Json.beq (Json.obj fs) (Json.obj gs) = Json.beqFields fs gs from rfl,
        Json.beqFields_iff fs gs]
      simp
  termination_by structural a _ => a

theorem Json.beqList_iff : ∀ xs ys : List Json, (Json.beqList xs ys = true) ↔ xs = ys
  | [], [] => by simp [Json.beqList]
  | [], _ :: _ => by simp [Json.beqList]
  | _ :: _, [] => by simp [Json.beqList]
  | x :: xs, y :: ys => by
      rw [show Json.beqList (x :: xs) (y :: ys) = (Json.beq x y && Json.beqList xs ys) from rfl]
      rw [Bool.and_eq_true, Json.beq_iff x y, Json.beqList_iff xs ys]
      simp
  termination_by structural xs _ => xs

theorem Json.beqFields_iff :
    ∀ fs gs : List (String × Json), (Json.beqFields fs gs = true) ↔ fs = gs
  | [], [] => by simp [Json.beqFields]
  | [], _ :: _ => by simp [Json.beqFields]
  | _ :: _, [] => by simp [Json.beqFields]
  | (k, v) :: fs, (k', v') :: gs => by
      rw [show Json.beqFields ((k, v) :: fs) ((k', v') :: gs) =
        (k == k' && Json.beq v v' && Json.beqFields fs gs) from rfl]
      rw [Bool.and_eq_true, Bool.and_eq_true, Json.beq_iff v v', Json.beqFields_iff fs gs]
      simp [Prod.ext_iff]
  termination_by structural fs _ => fs

end

instance : DecidableEq Json := fun a b => decidable_of_iff _ (Json.beq_iff a b)

/-- A lead record: a Python dict from attribute name to JSON value,
modelled as an insertion-ordered association list. -/
abbrev Record := List (String × Json)

/-- Python truthiness (`bool(x)`) of a JSON value. -/
def Json.truthy : Json → Bool
  | .null => false
  | .bool b => b
  | .num m _ => !(m == 0)
  | .str s => !s.isEmpty
  | .arr xs => !xs.isEmpty
  | .obj fs => !fs.isEmpty

/-- Python truthiness of the result of `dict.get` (`None` is falsy). -/
def truthyO : Option Json → Bool
  | none => false
  | some v => v.truthy

/-- `d.get(k)`: the value of the first entry with key `k`. -/
def dictGet : Record → String → Option Json
  | [], _ => none
  | (k', v) :: d, k => if k' = k then some v else dictGet d k

/-- `k in d`. -/
def dictHas (d : Record) (k : String) : Bool := (dictGet d k).isSome

/-- Replace the value of the first entry with key `k` (position kept). -/
def dictSetIn : Record → String → Json → Record
  | [], _, _ => []
  | (k', v') :: d, k, v => if k' = k then (k', v) :: d else (k', v') :: dictSetIn d k v

/-- `d[k] = v` on a Python dict: overwrite in place when the key is
present, otherwise append the new entry at the end. -/
def dictSet (d : Record) (k : String) (v : Json) : Record :=
  if dictHas d k then dictSetIn d k v else d ++ [(k, v)]

/-- `d.update(inc)`: assign each of `inc`'s entries into `d` in order. -/
def dictUpdate (d : Record) (inc : Record) : Record :=
  inc.foldl (fun acc p => dictSet acc p.1 p.2) d

/-- The value of the last entry with key `k` (what a sequence of
assignments leaves behind for that key). -/
def lastGet (d : Record) (k : String) : Option Json := dictGet d.reverse k

/-- The record with every `"timestamp"` entry removed. -/
def stripTimestamp (d : Record) : Record := d.filter (fun p => !(p.1 == "timestamp"))

/-- Well-formedness of a record as a Python dict: keys are distinct. -/
def recordWF (d : Record) : Prop := (d.map Prod.fst).Nodup

/-! ### Model of `json.loads` (Python's strict JSON parser) -/

/-- JSON whitespace (the four characters allowed between tokens). -/
def isJsonWs (c : Char) : Bool := c == ' ' || c == '\t' || c == '\n' || c == '\r'

def skipWs (s : List Char) : List Char := s.dropWhile isJsonWs

def hexDigit (c : Char) : Option Nat :=
  if '0' ≤ c && c ≤ '9' then some (c.toNat - 48)
  else if 'a' ≤ c && c ≤ 'f' then some (c.toNat - 87)
  else if 'A' ≤ c && c ≤ 'F' then some (c.toNat - 55)
  else none

/-- Scan the body of a JSON string literal (after the opening quote),
handling escapes; returns the decoded characters and the rest of the
input after the closing quote. -/
def strChars : List Char → List Char → Option (List Char × List Char)
  | [], _ => none
  | '"' :: r, acc => some (acc.reverse, r)
  | '\\' :: '"' :: r, acc => strChars r ('"' :: acc)
  | '\\' :: '\\' :: r, acc => strChars r ('\\' :: acc)
  | '\\' :: '/' :: r, acc => strChars r ('/' :: acc)
  | '\\' :: 'b' :: r, acc => strChars r ('\x08' :: acc)
  | '\\' :: 'f' :: r, acc => strChars r ('\x0c' :: acc)
  | '\\' :: 'n' :: r, acc => strChars r ('\n' :: acc)
  | '\\' :: 'r' :: r, acc => strChars r ('\r' :: acc)
  | '\\' :: 't' :: r, acc => strChars r ('\t' :: acc)
  | '\\' :: 'u' :: a :: b :: c :: d :: r, acc =>
      match hexDigit a, hexDigit b, hexDigit c, hexDigit d with
      | some ha, some hb, some hc, some hd =>
          strChars r (Char.ofNat (((ha * 16 + hb) * 16 + hc) * 16 + hd) :: acc)
      | _, _, _, _ => none
  | '\\' :: _, _ => none
  | c :: r, acc => if c.toNat < 32 then none else strChars r (c :: acc)

/-- Parse a JSON string literal positioned after its opening quote. -/
def parseStrRest (s : List Char) : Option (String × List Char) :=
  (strChars s []).map (fun p => (String.mk p.1, p.2))

def digitsToNat (ds : List Char) : Nat := ds.foldl (fun n c => n * 10 + (c.toNat - 48)) 0

/-- Parse a JSON number (strict grammar: optional minus, no leading
zeros, optional fraction and exponent). -/
def parseNum (s : List Char) : Option (Json × List Char) :=
  let (neg, s1) := match s with
    | '-' :: r => (true, r)
    | _ => (false, s)
  let intDs := s1.takeWhile Char.isDigit
  let s2 := s1.dropWhile Char.isDigit
  if intDs.isEmpty then none
  else if 1 < intDs.length && intDs.headD '1' == '0' then none
  else
    let contFrac : List Char → List Char → Option (Json × List Char) := fun fracDs s3 =>
      let mkNum : Int → Option (Json × List Char) := fun expVal =>
        let mAbs : Nat := digitsToNat (intDs ++ fracDs)
        let m : Int := if neg then -(mAbs : Int) else (mAbs : Int)
        some (Json.num m (expVal - fracDs.length), skipNothing s3 mAbs)
      match s3 with
      | 'e' :: r | 'E' :: r =>
          let (eneg, r1) := match r with
            | '+' :: r' => (false, r')
            | '-' :: r' => (true, r')
            | _ => (false, r)
          let expDs := r1.takeWhile Char.isDigit
          if expDs.isEmpty then none
          else
            let ev : Int := if eneg then -(digitsToNat expDs : Int) else (digitsToNat expDs : Int)
            (mkNum ev).map (fun p => (p.1, r1.dropWhile Char.isDigit))
      | _ => mkNum 0
    match s2 with
    | '.' :: r =>
        let fracDs := r.takeWhile Char.isDigit
        if fracDs.isEmpty then none
        else contFrac fracDs (r.dropWhile Char.isDigit)
    | _ => contFrac [] s2
where
  /-- helper so the non-exponent continuation can return `s3` unchanged -/
  skipNothing (s3 : List Char) (_ : Nat) : List Char := s3

mutual

/-- Parse one JSON value (fuel-indexed recursive descent). -/
def parseVal : Nat → List Char → Option (Json × List Char)
  | 0, _ => none
  | fuel + 1, s =>
    match skipWs s with
    | 'n' :: 'u' :: 'l' :: 'l' :: r => some (Json.null, r)
    | 't' :: 'r' :: 'u' :: 'e' :: r => some (Json.bool true, r)
    | 'f' :: 'a' :: 'l' :: 's' :: 'e' :: r => some (Json.bool false, r)
    | '"' :: r => (parseStrRest r).map (fun p => (Json.str p.1, p.2))
    | '[' :: r =>
        (match skipWs r with
         | ']' :: r' => some (Json.arr [], r')
         | _ => parseItems fuel r [])
    | '\x7b' :: r =>
        (match skipWs r with
         | '\x7d' :: r' => some (Json.obj [], r')
         | _ => parseMembers fuel r [])
    | c :: r => parseNum (c :: r)
    | [] => none

/-- Parse the comma-separated elements of a JSON array up to `]`. -/
def parseItems : Nat → List Char → List Json → Option (Json × List Char)
  | 0, _, _ => none
  | fuel + 1, s, acc =>
    match parseVal fuel s with
    | none => none
    | some (v, r) =>
      match skipWs r with
      | ',' :: r' => parseItems fuel r' (acc ++ [v])
      | ']' :: r' => some (Json.arr (acc ++ [v]), r')
      | _ => none

/-- Parse the comma-separated members of a JSON object up to the closing
brace; duplicate keys behave like repeated dict assignment. -/
def parseMembers : Nat → List Char → Record → Option (Json × List Char)
  | 0, _, _ => none
  | fuel + 1, s, acc =>
    match skipWs s with
    | '"' :: r =>
      match parseStrRest r with
      | none => none
      | some (k, r1) =>
        match skipWs r1 with
        | ':' :: r2 =>
          match parseVal fuel r2 with
          | none => none
          | some (v, r3) =>
            match skipWs r3 with
            | ',' :: r4 => parseMembers fuel r4 (dictSet acc k v)
            | '\x7d' :: r4 => some (Json.obj (dictSet acc k v), r4)
            | _ => none
        | _ => none
    | _ => none

end

/-- Model of `json.loads`: parse one JSON document with nothing but
whitespace around it; `none` models a raised `JSONDecodeError`. -/
def jsonLoads (s : List Char) : Option Json :=
  match parseVal (2 * s.length + 2) s with
  | some (v, rest) => if skipWs rest = [] then some v else none
  | none => none

/-! ### Python string primitives used by the app -/

/-- `pat` occurs in `s` starting at index `i`. -/
def occursAt (s pat : List Char) (i : Nat) : Bool := pat.isPrefixOf (s.drop i)

/-- Scan upward from index `i` with the given fuel for the first
occurrence of `pat`. -/
def findFromGo (s pat : List Char) : Nat → Nat → Option Nat
  | 0, _ => none
  | fuel + 1, i => if occursAt s pat i then some i else findFromGo s pat fuel (i + 1)

/-- Index of the first occurrence of `pat` in `s` at or after `start`. -/
def findFrom (s pat : List Char) (start : Nat) : Option Nat :=
  findFromGo s pat (s.length + 1 - start) start

/-- Python `s.find(pat, start)`: first index of `pat` at or after
`start`, or `-1` when there is none. -/
def pyFind (s pat : List Char) (start : Nat) : Int :=
  match findFrom s pat start with
  | some i => (i : Int)
  | none => -1

/-- Python slice `s[a:b]` for nonnegative bounds. -/
def pySlice (s : List Char) (a b : Nat) : List Char := (s.take b).drop a

/-- Python whitespace stripped by `str.strip()` (ASCII part). -/
def isPyWs (c : Char) : Bool :=
  c == ' ' || c == '\t' || c == '\n' || c == '\r' || c == '\x0b' || c == '\x0c'

/-- Python `s.strip()`. -/
def pyStrip (s : List Char) : List Char :=
  ((s.dropWhile isPyWs).reverse.dropWhile isPyWs).reverse

/-- The fence-open marker scanned for by the app. -/
def fenceOpen : List Char := "```json".data

/-- The fence-close marker. -/
def fenceClose : List Char := "```".data

/-! ### The extraction and merge pipeline (`streamlit_app.py`) -/

/-- `extract_lead_data(response)`: locate the first `` ```json `` marker,
then the first ``` ``` `` after position `json_start + 6`, slice strictly
between them, strip, and `json.loads` the payload; any failure (missing
marker or parse error) yields the empty dict. -/
def extract_lead_data (response : List Char) : Json :=
  let json_start : Int := pyFind response fenceOpen 0
  let json_end : Int := pyFind response fenceClose (json_start + 6).toNat
  if json_start ≠ -1 ∧ json_end ≠ -1 then
    match jsonLoads (pyStrip (pySlice response (json_start + 7).toNat json_end.toNat)) with
    | some v => v
    | none => Json.obj []
  else Json.obj []

/-- The `email` field of a record, as read by `lead.get('email')`. -/
def emailOf (d : Record) : Option Json := dictGet d "email"

/-- The `for i, lead in enumerate(leads)` loop of `update_lead_info`:
merge `ld` into the first record whose `email` equals `ld`'s and stop;
`none` when no record matches. -/
def mergeLoop (ld : Record) : List Record → Option (List Record)
  | [] => none
  | lead :: rest =>
      if emailOf lead = emailOf ld then some (dictUpdate lead ld :: rest)
      else (mergeLoop ld rest).map (fun r => lead :: r)

/-- `update_lead_info(lead_data)` acting on the `leads` list, with the
merge-time timestamp `now` passed explicitly.  Returns `none` when the
Python code would raise (item assignment on a non-dict value). -/
def update_lead_info (now : String) (lead_data : Json) (leads : List Record) :
    Option (List Record) :=
  if lead_data.truthy then
    match lead_data with
    | Json.obj fields =>
        let ld := dictSet fields "timestamp" (Json.str now)
        if truthyO (dictGet ld "email") then
          match mergeLoop ld leads with
          | some leads' => some leads'
          | none => some (leads ++ [ld])
        else some (leads ++ [ld])
    | _ => none
  else some leads

/-- Extraction followed by upsert, as run for each assistant reply. -/
def processReply (now : String) (response : List Char) (leads : List Record) :
    Option (List Record) :=
  update_lead_info now (extract_lead_data response) leads

/-! ### Export (`save_leads_to_csv` and the Export Leads button) -/

/-- Column set of `pd.DataFrame(leads)`: union of the records' keys in
order of first appearance. -/
def tableCols (leads : List Record) : List String :=
  leads.foldl (fun acc d => d.foldl (fun a p => if a.contains p.1 then a else a ++ [p.1]) acc) []

/-- `save_leads_to_csv()`: `none` models the `False` return on an empty
registry (nothing written); otherwise the written table, one row per
record, each row aligned to the column list (missing values empty). -/
def save_leads_to_csv (leads : List Record) :
    Option (List String × List (List (Option Json))) :=
  if leads.isEmpty then none
  else some (tableCols leads, leads.map (fun d => (tableCols leads).map (dictGet d)))

/-- The notice the Export Leads button surfaces. -/
inductive ExportNotice where
  | exported : ExportNotice
  | noLeads : ExportNotice
deriving DecidableEq

/-- The Export Leads button branch: success notice when
`save_leads_to_csv` wrote a file, warning otherwise. -/
def exportButton (leads : List Record) : ExportNotice :=
  match save_leads_to_csv leads with
  | some _ => ExportNotice.exported
  | none => ExportNotice.noLeads

/-! ### Display truncation -/

/-- Assistant content as rendered by the chat-history loop: truncated at
the first `` ```json `` marker when one is present. -/
def assistantHistoryDisplay (content : List Char) : List Char :=
  let json_start : Int := pyFind content fenceOpen 0
  if json_start ≠ -1 then content.take json_start.toNat else content

/-- Python `s.split(sep)` for a nonempty separator (fuel-indexed). -/
def pySplit (fuel : Nat) (s sep : List Char) : List (List Char) :=
  match fuel with
  | 0 => [s]
  | fuel + 1 =>
    match findFrom s sep 0 with
    | none => [s]
    | some i => s.take i :: pySplit fuel (s.drop (i + sep.length)) sep

/-- `display_response = response.split("```json")[0]` from the fresh
reply path. -/
def display_response (response : List Char) : List Char :=
  (pySplit (response.length + 1) response fenceOpen).headD []

/-! ### Registry invariant and reachability -/

/-- No two records share the same non-empty (truthy) email. -/
def RegistryInv (leads : List Record) : Prop :=
  leads.Pairwise (fun a b => truthyO (emailOf a) = true → emailOf a ≠ emailOf b)

/-- Records a Python dict can actually hold: objects have distinct keys. -/
def JsonWF : Json → Prop
  | Json.obj fields => recordWF fields
  | _ => True

/-- Registries reachable from the empty registry by a sequence of
completed upserts. -/
inductive Reach : List Record → Prop where
  | nil : Reach []
  | step (t : String) (ld : Json) (leads leads' : List Record) :
      Reach leads → JsonWF ld → update_lead_info t ld leads = some leads' → Reach leads'

/-! ### Lemmas: occurrence search -/

theorem isPrefixOf_length_le {l1 l2 : List Char} (h : l1.isPrefixOf l2 = true) :
    l1.length ≤ l2.length := by
  induction l1 generalizing l2 with
  | nil => simp
  | cons a as ih =>
    cases l2 with
    | nil => simp [List.isPrefixOf] at h
    | cons b bs =>
      simp only [List.isPrefixOf, Bool.and_eq_true] at h
      simp only [List.length_cons]
      exact Nat.succ_le_succ (ih h.2)

theorem isPrefixOf_append_self (l1 l2 : List Char) : l1.isPrefixOf (l1 ++ l2) = true := by
  induction l1 with
  | nil => simp [List.isPrefixOf]
  | cons a as ih => simp [List.isPrefixOf, ih]

theorem occursAt_of_append (a b pat : List Char) :
    occursAt (a ++ (pat ++ b)) pat a.length = true := by
  unfold occursAt
  rw [List.drop_left]
  exact isPrefixOf_append_self pat b

theorem occursAt_lt {s pat : List Char} {j : Nat} (hp : pat ≠ []) (h : occursAt s pat j = true) :
    j < s.length := by
  unfold occursAt at h
  have hlen := isPrefixOf_length_le h
  rw [List.length_drop] at hlen
  cases pat with
  | nil => exact absurd rfl hp
  | cons c cs => simp at hlen; omega

theorem occursAt_ge_len {s pat : List Char} (hp : pat ≠ []) {i : Nat} (hi : s.length ≤ i) :
    occursAt s pat i = false := by
  by_contra hcon
  have := occursAt_lt hp (by simpa using hcon)
  omega

theorem findFromGo_eq_some {s pat : List Char} :
    ∀ {fuel i j : Nat}, findFromGo s pat fuel i = some j →
      i ≤ j ∧ occursAt s pat j = true ∧ ∀ k, i ≤ k → k < j → occursAt s pat k = false := by
  intro fuel
  induction fuel with
  | zero => intro i j h; simp [findFromGo] at h
  | succ fuel ih =>
    intro i j h
    simp only [findFromGo] at h
    by_cases hocc : occursAt s pat i = true
    · rw [if_pos hocc] at h
      obtain rfl : i = j := by simpa using h
      exact ⟨le_refl _, hocc, fun k h1 h2 => absurd (lt_of_le_of_lt h1 h2) (lt_irrefl _)⟩
    · rw [if_neg hocc] at h
      obtain ⟨h1, h2, h3⟩ := ih h
      refine ⟨by omega, h2, fun k hk1 hk2 => ?_⟩
      rcases Nat.eq_or_lt_of_le hk1 with rfl | hlt
      · simpa using hocc
      · exact h3 k hlt hk2

theorem findFromGo_eq_none {s pat : List Char} :
    ∀ {fuel i : Nat}, findFromGo s pat fuel i = none →
      ∀ k, i ≤ k → k < i + fuel → occursAt s pat k = false := by
  intro fuel
  induction fuel with
  | zero => intro i _ k h1 h2; omega
  | succ fuel ih =>
    intro i h k h1 h2
    simp only [findFromGo] at h
    by_cases hocc : occursAt s pat i = true
    · simp [hocc] at h
    · rw [if_neg hocc] at h
      rcases Nat.eq_or_lt_of_le h1 with rfl | hlt
      · simpa using hocc
      · exact ih h k hlt (by omega)

theorem findFromGo_ne_none {s pat : List Char} :
    ∀ {fuel i j : Nat}, i ≤ j → j < i + fuel → occursAt s pat j = true →
      findFromGo s pat fuel i ≠ none := by
  intro fuel
  induction fuel with
  | zero => intro i j h1 h2; omega
  | succ fuel ih =>
    intro i j h1 h2 hocc
    simp only [findFromGo]
    by_cases hi : occursAt s pat i = true
    · simp [hi]
    · rw [if_neg hi]
      rcases Nat.eq_or_lt_of_le h1 with rfl | hlt
      · exact absurd hocc (by simpa using hi)
      · exact ih hlt (by omega) hocc

theorem findFrom_eq_some {s pat : List Char} {start j : Nat}
    (h : findFrom s pat start = some j) :
    start ≤ j ∧ occursAt s pat j = true ∧ ∀ k, start ≤ k → k < j → occursAt s pat k = false :=
  findFromGo_eq_some h

theorem findFrom_eq_none {s pat : List Char} (hp : pat ≠ []) {start : Nat}
    (h : findFrom s pat start = none) :
    ∀ k, start ≤ k → occursAt s pat k = false := by
  intro k hk
  by_cases hlen : k < s.length
  · exact findFromGo_eq_none h k hk (by omega)
  · exact occursAt_ge_len hp (by omega)

theorem findFrom_eq_some_of_minimal {s pat : List Char} (hp : pat ≠ []) {start j : Nat}
    (hj : occursAt s pat j = true) (hs : start ≤ j)
    (hmin : ∀ k, start ≤ k → k < j → occursAt s pat k = false) :
    findFrom s pat start = some j := by
  have hjlt : j < s.length := occursAt_lt hp hj
  cases hfind : findFrom s pat start with
  | none => exact absurd (findFrom_eq_none hp hfind j hs) (by simp [hj])
  | some j' =>
    obtain ⟨h1, h2, h3⟩ := findFrom_eq_some hfind
    have hn1 : ¬ j' < j := fun hlt => by simpa [h2] using hmin j' h1 hlt
    have hn2 : ¬ j < j' := fun hlt => by simpa [hj] using h3 j hs hlt
    have : j' = j := by omega
    rw [this]

/-! ### Lemmas: list slicing -/

theorem take_len_append (l1 l2 : List Char) : (l1 ++ l2).take l1.length = l1 := by
  simp [List.take_left]

theorem pySlice_middle (a b c : List Char) :
    pySlice (a ++ b ++ c) a.length (a.length + b.length) = b := by
  unfold pySlice
  have htake : (a ++ b ++ c).take (a.length + b.length) = a ++ b := by
    have := take_len_append (a ++ b) c
    simpa [List.append_assoc] using this
  rw [List.append_assoc] at htake ⊢
  rw [htake]
  exact List.drop_left a b

/-! ### Lemmas: dict operations -/

theorem dictGet_append (d d' : Record) (k : String) :
    dictGet (d ++ d') k =
      match dictGet d k with
      | some v => some v
      | none => dictGet d' k := by
  induction d with
  | nil => simp [dictGet]
  | cons p d ih =>
    obtain ⟨k', v'⟩ := p
    by_cases h : k' = k <;> simp [dictGet, h, ih]

theorem dictGet_dictSetIn_same {d : Record} {k : String} {v : Json}
    (h : (dictGet d k).isSome) : dictGet (dictSetIn d k v) k = some v := by
  induction d with
  | nil => simp [dictGet] at h
  | cons p d ih =>
    obtain ⟨k', v'⟩ := p
    by_cases hk : k' = k
    · simp [dictGet, dictSetIn, hk]
    · simp [dictGet, dictSetIn, hk] at h ⊢
      exact ih h

theorem dictGet_dictSetIn_other {d : Record} {k k' : String} {v : Json} (h : k' ≠ k) :
    dictGet (dictSetIn d k v) k' = dictGet d k' := by
  induction d with
  | nil => simp [dictSetIn]
  | cons p d ih =>
    obtain ⟨k'', v''⟩ := p
    by_cases hk : k'' = k
    · subst hk
      have hne : ¬ (k'' = k') := fun hc => h hc.symm
      simp [dictSetIn, dictGet, hne]
    · have hstep : dictSetIn ((k'', v'') :: d) k v = (k'', v'') :: dictSetIn d k v := by
        simp [dictSetIn, hk]
      rw [hstep]
      by_cases hk' : k'' = k' <;> simp [dictGet, hk', ih]

theorem dictGet_dictSet_same (d : Record) (k : String) (v : Json) :
    dictGet (dictSet d k v) k = some v := by
  unfold dictSet dictHas
  by_cases h : (dictGet d k).isSome
  · simp [h, dictGet_dictSetIn_same h]
  · have hn : dictGet d k = none := by
      cases hh : dictGet d k <;> simp [hh] at h ⊢
    simp [h, dictGet_append, hn, dictGet]

theorem dictGet_dictSet_other (d : Record) {k k' : String} (v : Json) (h : k' ≠ k) :
    dictGet (dictSet d k v) k' = dictGet d k' := by
  have hne : ¬ (k = k') := fun hc => h hc.symm
  unfold dictSet
  by_cases hh : dictHas d k
  · simp [hh, dictGet_dictSetIn_other h]
  · rw [if_neg hh, dictGet_append]
    cases hget : dictGet d k' with
    | none => simp [dictGet, hne]
    | some w => simp

theorem dictGet_none_iff {d : Record} {k : String} :
    dictGet d k = none ↔ k ∉ d.map Prod.fst := by
  induction d with
  | nil => simp [dictGet]
  | cons p d ih =>
    obtain ⟨k', v'⟩ := p
    by_cases h : k' = k
    · subst h
      simp [dictGet]
    · have hne : ¬ (k = k') := fun hc => h hc.symm
      simp [dictGet, h, hne, ih]

theorem keys_dictSetIn (d : Record) (k : String) (v : Json) :
    (dictSetIn d k v).map Prod.fst = d.map Prod.fst := by
  induction d with
  | nil => simp [dictSetIn]
  | cons p d ih =>
    obtain ⟨k', v'⟩ := p
    by_cases h : k' = k <;> simp [dictSetIn, h, ih]

theorem recordWF_dictSet {d : Record} (k : String) (v : Json) (h : recordWF d) :
    recordWF (dictSet d k v) := by
  unfold dictSet
  by_cases hh : dictHas d k
  · simpa [hh, recordWF, keys_dictSetIn] using h
  · have hk : k ∉ d.map Prod.fst := by
      rw [← dictGet_none_iff]
      unfold dictHas at hh
      cases hget : dictGet d k <;> simp [hget] at hh ⊢
    have hnd : (d.map Prod.fst ++ [k]).Nodup := by
      rw [List.nodup_append]
      refine ⟨h, List.nodup_singleton k, ?_⟩
      intro a ha hb
      simp only [List.mem_singleton] at hb
      subst hb
      exact hk ha
    simpa [recordWF, hh] using hnd

theorem dictSetIn_self {d : Record} {k : String} {v : Json} (h : dictGet d k = some v) :
    dictSetIn d k v = d := by
  induction d with
  | nil => simp [dictGet] at h
  | cons p d ih =>
    obtain ⟨k', v'⟩ := p
    by_cases hk : k' = k
    · simp [dictGet, hk] at h
      simp [dictSetIn, hk, h]
    · simp [dictGet, hk] at h
      simp [dictSetIn, hk, ih h]

theorem dictSet_self {d : Record} {k : String} {v : Json} (h : dictGet d k = some v) :
    dictSet d k v = d := by
  unfold dictSet dictHas
  simp [h, dictSetIn_self h]

theorem lastGet_cons (p : String × Json) (d : Record) (k : String) :
    lastGet (p :: d) k =
      match lastGet d k with
      | some v => some v
      | none => if p.1 = k then some p.2 else none := by
  unfold lastGet
  simp only [List.reverse_cons, dictGet_append]
  cases lastGet d k <;> simp [lastGet, dictGet]

theorem dictGet_dictUpdate (d inc : Record) (k : String) :
    dictGet (dictUpdate d inc) k =
      match lastGet inc k with
      | some v => some v
      | none => dictGet d k := by
  induction inc generalizing d with
  | nil => simp [dictUpdate, lastGet, dictGet]
  | cons p rest ih =>
    obtain ⟨k', v'⟩ := p
    have hfold : dictUpdate d ((k', v') :: rest) = dictUpdate (dictSet d k' v') rest := rfl
    rw [hfold, ih, lastGet_cons]
    cases hl : lastGet rest k with
    | some v => simp
    | none =>
      by_cases hk : k' = k
      · subst hk
        simp [dictGet_dictSet_same]
      · simp [hk, dictGet_dictSet_other d v' (fun hc => hk hc.symm)]

theorem lastGet_eq_dictGet {inc : Record} (h : recordWF inc) (k : String) :
    lastGet inc k = dictGet inc k := by
  induction inc with
  | nil => simp [lastGet, dictGet]
  | cons p rest ih =>
    obtain ⟨k', v'⟩ := p
    have hwf : recordWF rest := (List.nodup_cons.mp h).2
    have hnotin : k' ∉ rest.map Prod.fst := (List.nodup_cons.mp h).1
    rw [lastGet_cons, ih hwf]
    by_cases hk : k' = k
    · subst hk
      have : dictGet rest k' = none := dictGet_none_iff.mpr hnotin
      simp [this, dictGet]
    · simp [dictGet, hk]
      cases dictGet rest k <;> simp

theorem dictGet_of_mem {d : Record} (h : recordWF d) {k : String} {v : Json}
    (hm : (k, v) ∈ d) : dictGet d k = some v := by
  induction d with
  | nil => simp at hm
  | cons p rest ih =>
    obtain ⟨k', v'⟩ := p
    have hwf : recordWF rest := (List.nodup_cons.mp h).2
    have hnotin : k' ∉ rest.map Prod.fst := (List.nodup_cons.mp h).1
    rcases List.mem_cons.mp hm with heq | hmem
    · obtain ⟨rfl, rfl⟩ := Prod.mk.inj heq
      simp [dictGet]
    · have hne : k' ≠ k := by
        intro hc
        subst hc
        exact hnotin (List.mem_map.mpr ⟨(k', v), hmem, rfl⟩)
      simp [dictGet, hne, ih hwf hmem]

theorem mem_dictSetIn {d : Record} {k : String} {v : Json} {p : String × Json}
    (h : p ∈ dictSetIn d k v) : p = (k, v) ∨ p ∈ d := by
  induction d with
  | nil => simp [dictSetIn] at h
  | cons q rest ih =>
    obtain ⟨k', v'⟩ := q
    by_cases hk : k' = k
    · subst hk
      simp only [dictSetIn, if_pos rfl] at h
      rcases List.mem_cons.mp h with heq | hmem
      · left; rw [heq]
      · right; exact List.mem_cons_of_mem _ hmem
    · simp only [dictSetIn, if_neg hk] at h
      rcases List.mem_cons.mp h with heq | hmem
      · right; rw [heq]; exact List.mem_cons_self _ _
      · rcases ih hmem with h1 | h2
        · left; exact h1
        · right; exact List.mem_cons_of_mem _ h2

theorem mem_dictSet {d : Record} {k : String} {v : Json} {p : String × Json}
    (h : p ∈ dictSet d k v) : p = (k, v) ∨ p ∈ d := by
  unfold dictSet at h
  by_cases hh : dictHas d k
  · rw [if_pos hh] at h
    exact mem_dictSetIn h
  · rw [if_neg hh] at h
    rcases List.mem_append.mp h with hmem | hmem
    · right; exact hmem
    · left; simpa using hmem

theorem stripTimestamp_append (d d' : Record) :
    stripTimestamp (d ++ d') = stripTimestamp d ++ stripTimestamp d' := by
  simp [stripTimestamp, List.filter_append]

theorem stripTimestamp_dictSetIn (d : Record) (v : Json) :
    stripTimestamp (dictSetIn d "timestamp" v) = stripTimestamp d := by
  induction d with
  | nil => simp [dictSetIn]
  | cons p rest ih =>
    obtain ⟨k', v'⟩ := p
    by_cases hk : k' = "timestamp"
    · subst hk
      simp [dictSetIn, stripTimestamp]
    · simp only [dictSetIn, if_neg hk]
      simp [stripTimestamp, hk] at ih ⊢
      exact ih

theorem stripTimestamp_dictSet (d : Record) (v : Json) :
    stripTimestamp (dictSet d "timestamp" v) = stripTimestamp d := by
  unfold dictSet
  by_cases hh : dictHas d "timestamp"
  · simp [hh, stripTimestamp_dictSetIn]
  · simp [hh, stripTimestamp_append, stripTimestamp]

theorem stripTimestamp_dictUpdate {inc e : Record}
    (h : ∀ k v, (k, v) ∈ inc → k = "timestamp" ∨ dictGet e k = some v) :
    stripTimestamp (dictUpdate e inc) = stripTimestamp e := by
  induction inc generalizing e with
  | nil => rfl
  | cons p rest ih =>
    obtain ⟨k, v⟩ := p
    have hfold : dictUpdate e ((k, v) :: rest) = dictUpdate (dictSet e k v) rest := rfl
    rw [hfold]
    rcases h k v (List.mem_cons_self _ _) with hts | hget
    · subst hts
      rw [ih ?_, stripTimestamp_dictSet]
      intro k' v' hp
      by_cases hpts : k' = "timestamp"
      · left; exact hpts
      · rcases h k' v' (List.mem_cons_of_mem _ hp) with h1 | h2
        · exact absurd h1 hpts
        · right
          rw [dictGet_dictSet_other e v hpts]
          exact h2
    · rw [dictSet_self hget]
      apply ih
      intro k' v' hp
      exact h k' v' (List.mem_cons_of_mem _ hp)

/-! ### Lemmas: the extractor -/

theorem fenceOpen_ne_nil : fenceOpen ≠ [] := by decide

theorem fenceClose_ne_nil : fenceClose ≠ [] := by decide

theorem fenceOpen_length : fenceOpen.length = 7 := by decide

theorem extract_lead_data_decomp (pre mid post : List Char)
    (hopen : ∀ k, k < pre.length →
      occursAt (pre ++ fenceOpen ++ mid ++ fenceClose ++ post) fenceOpen k = false)
    (hclose : ∀ k, pre.length + 6 ≤ k → k < pre.length + 7 + mid.length →
      occursAt (pre ++ fenceOpen ++ mid ++ fenceClose ++ post) fenceClose k = false) :
    extract_lead_data (pre ++ fenceOpen ++ mid ++ fenceClose ++ post) =
      match jsonLoads (pyStrip mid) with
      | some v => v
      | none => Json.obj [] := by
  set r := pre ++ fenceOpen ++ mid ++ fenceClose ++ post with hr
  have hoccO : occursAt r fenceOpen pre.length = true := by
    rw [hr]
    have := occursAt_of_append pre (mid ++ (fenceClose ++ post)) fenceOpen
    simpa [List.append_assoc] using this
  have hoccC : occursAt r fenceClose (pre.length + 7 + mid.length) = true := by
    rw [hr]
    have h2 := occursAt_of_append (pre ++ (fenceOpen ++ mid)) post fenceClose
    have hlen : (pre ++ (fenceOpen ++ mid)).length = pre.length + 7 + mid.length := by
      simp [fenceOpen_length]
      omega
    rw [hlen] at h2
    simpa [List.append_assoc] using h2
  have hfindO : findFrom r fenceOpen 0 = some pre.length :=
    findFrom_eq_some_of_minimal fenceOpen_ne_nil hoccO (Nat.zero_le _)
      (fun k _ hk => hopen k hk)
  have hfindC : findFrom r fenceClose (pre.length + 6) =
      some (pre.length + 7 + mid.length) :=
    findFrom_eq_some_of_minimal fenceClose_ne_nil hoccC (by omega)
      (fun k hk1 hk2 => hclose k hk1 hk2)
  have e1 : pyFind r fenceOpen 0 = (pre.length : Int) := by
    simp [pyFind, hfindO]
  have ht1 : ((pre.length : Int) + 6).toNat = pre.length + 6 := by omega
  have e2 : pyFind r fenceClose (pre.length + 6) =
      ((pre.length + 7 + mid.length : Nat) : Int) := by
    simp [pyFind, hfindC]
  have ht2 : ((pre.length : Int) + 7).toNat = pre.length + 7 := by omega
  have ht3 : ((pre.length + 7 + mid.length : Nat) : Int).toNat =
      pre.length + 7 + mid.length := by omega
  have hsl : pySlice r (pre.length + 7) (pre.length + 7 + mid.length) = mid := by
    rw [hr]
    have := pySlice_middle (pre ++ fenceOpen) mid (fenceClose ++ post)
    have hlen2 : (pre ++ fenceOpen).length = pre.length + 7 := by simp [fenceOpen_length]
    rw [hlen2] at this
    simpa [List.append_assoc] using this
  simp only [extract_lead_data, e1, ht1, e2, ht2, ht3, hsl]
  rw [if_pos ⟨by omega, by omega⟩]

theorem extract_lead_data_no_open {r : List Char}
    (h : ∀ k, k < r.length → occursAt r fenceOpen k = false) :
    extract_lead_data r = Json.obj [] := by
  have hnone : findFrom r fenceOpen 0 = none := by
    cases hf : findFrom r fenceOpen 0 with
    | none => rfl
    | some j =>
      obtain ⟨_, h2, _⟩ := findFrom_eq_some hf
      have hlt := occursAt_lt fenceOpen_ne_nil h2
      rw [h j hlt] at h2
      exact absurd h2 (by simp)
  simp [extract_lead_data, pyFind, hnone]

theorem extract_lead_data_no_close {r : List Char} {i : Nat}
    (hocc : occursAt r fenceOpen i = true)
    (hmin : ∀ k, k < i → occursAt r fenceOpen k = false)
    (h : ∀ k, i + 6 ≤ k → k < r.length → occursAt r fenceClose k = false) :
    extract_lead_data r = Json.obj [] := by
  have hfo : findFrom r fenceOpen 0 = some i :=
    findFrom_eq_some_of_minimal fenceOpen_ne_nil hocc (Nat.zero_le _)
      (fun k _ hk => hmin k hk)
  have hfc : findFrom r fenceClose (i + 6) = none := by
    cases hf : findFrom r fenceClose (i + 6) with
    | none => rfl
    | some j =>
      obtain ⟨h1, h2, _⟩ := findFrom_eq_some hf
      have hlt := occursAt_lt fenceClose_ne_nil h2
      rw [h j h1 hlt] at h2
      exact absurd h2 (by simp)
  have ht1 : ((i : Int) + 6).toNat = i + 6 := by omega
  simp [extract_lead_data, pyFind, hfo, hfc, ht1]

/-! ### Lemmas: the merge loop and the upsert -/

theorem mergeLoop_eq_none_iff {ld : Record} {L : List Record} :
    mergeLoop ld L = none ↔ ∀ d ∈ L, emailOf d ≠ emailOf ld := by
  induction L with
  | nil => simp [mergeLoop]
  | cons lead rest ih =>
    by_cases h : emailOf lead = emailOf ld
    · simp [mergeLoop, h]
    · simp [mergeLoop, h, Option.map_eq_none', ih]

theorem mergeLoop_append_of (ld : Record) (l1 : List Record) (d : Record) (l2 : List Record)
    (h1 : ∀ d' ∈ l1, emailOf d' ≠ emailOf ld) (h2 : emailOf d = emailOf ld) :
    mergeLoop ld (l1 ++ d :: l2) = some (l1 ++ dictUpdate d ld :: l2) := by
  induction l1 with
  | nil => simp [mergeLoop, h2]
  | cons a rest ih =>
    have ha : emailOf a ≠ emailOf ld := h1 a (List.mem_cons_self _ _)
    have := ih (fun d' hd' => h1 d' (List.mem_cons_of_mem _ hd'))
    simp [mergeLoop, ha, this]

theorem mergeLoop_eq_some {ld : Record} {L L' : List Record} (h : mergeLoop ld L = some L') :
    ∃ l1 d l2, L = l1 ++ d :: l2 ∧ L' = l1 ++ dictUpdate d ld :: l2 ∧
      emailOf d = emailOf ld ∧ ∀ d' ∈ l1, emailOf d' ≠ emailOf ld := by
  induction L generalizing L' with
  | nil => simp [mergeLoop] at h
  | cons lead rest ih =>
    by_cases hm : emailOf lead = emailOf ld
    · simp only [mergeLoop, if_pos hm, Option.some.injEq] at h
      exact ⟨[], lead, rest, by simp, by simp [← h], hm, by simp⟩
    · simp only [mergeLoop, if_neg hm] at h
      cases hr : mergeLoop ld rest with
      | none => rw [hr] at h; simp at h
      | some L'' =>
        rw [hr] at h
        simp only [Option.map_some', Option.some.injEq] at h
        obtain ⟨l1, d, l2, e1, e2, e3, e4⟩ := ih hr
        refine ⟨lead :: l1, d, l2, by simp [e1], by simp [← h, e2], e3, ?_⟩
        intro d' hd'
        rcases List.mem_cons.mp hd' with rfl | hmem
        · exact hm
        · exact e4 d' hmem

theorem truthy_obj {fields : Record} (h : fields ≠ []) : (Json.obj fields).truthy = true := by
  simp [Json.truthy, h]

theorem update_lead_info_falsy (now : String) {ld : Json} (h : ld.truthy = false)
    (leads : List Record) : update_lead_info now ld leads = some leads := by
  simp [update_lead_info, h]

theorem update_lead_info_empty (now : String) (leads : List Record) :
    update_lead_info now (Json.obj []) leads = some leads :=
  update_lead_info_falsy now (by simp [Json.truthy]) leads

theorem update_lead_info_obj (now : String) {fields : Record} (h : fields ≠ [])
    (leads : List Record) :
    update_lead_info now (Json.obj fields) leads =
      (if truthyO (emailOf (dictSet fields "timestamp" (Json.str now))) then
        match mergeLoop (dictSet fields "timestamp" (Json.str now)) leads with
        | some leads' => some leads'
        | none => some (leads ++ [dictSet fields "timestamp" (Json.str now)])
      else some (leads ++ [dictSet fields "timestamp" (Json.str now)])) := by
  simp [update_lead_info, truthy_obj h, emailOf]

theorem emailOf_dictSet_timestamp (d : Record) (v : Json) :
    emailOf (dictSet d "timestamp" v) = emailOf d :=
  dictGet_dictSet_other d v (by decide)

theorem update_obj_append_falsy (now : String) {fields : Record} (hne : fields ≠ [])
    (hf : truthyO (emailOf fields) = false) (leads : List Record) :
    update_lead_info now (Json.obj fields) leads =
      some (leads ++ [dictSet fields "timestamp" (Json.str now)]) := by
  rw [update_lead_info_obj now hne, emailOf_dictSet_timestamp, hf]
  simp

theorem update_obj_merge (now : String) {fields : Record} {leads L' : List Record}
    (hne : fields ≠ []) (ht : truthyO (emailOf fields) = true)
    (hm : mergeLoop (dictSet fields "timestamp" (Json.str now)) leads = some L') :
    update_lead_info now (Json.obj fields) leads = some L' := by
  rw [update_lead_info_obj now hne, emailOf_dictSet_timestamp, ht, hm]
  simp

theorem update_obj_nomatch (now : String) {fields : Record} {leads : List Record}
    (hne : fields ≠ []) (ht : truthyO (emailOf fields) = true)
    (hm : mergeLoop (dictSet fields "timestamp" (Json.str now)) leads = none) :
    update_lead_info now (Json.obj fields) leads =
      some (leads ++ [dictSet fields "timestamp" (Json.str now)]) := by
  rw [update_lead_info_obj now hne, emailOf_dictSet_timestamp, ht, hm]
  simp

/-! ### Lemmas: the registry invariant -/

theorem truthyO_eq_true {o : Option Json} (h : truthyO o = true) :
    ∃ v, o = some v ∧ v.truthy = true := by
  cases o with
  | none => simp [truthyO] at h
  | some v => exact ⟨v, rfl, h⟩

theorem lastGet_none_iff {inc : Record} {k : String} :
    lastGet inc k = none ↔ k ∉ inc.map Prod.fst := by
  unfold lastGet
  rw [dictGet_none_iff]
  simp

theorem mem_keys_dictSet {d : Record} {k k' : String} {v : Json}
    (h : k' ∈ (dictSet d k v).map Prod.fst) : k' = k ∨ k' ∈ d.map Prod.fst := by
  obtain ⟨p, hp, hfst⟩ := List.mem_map.mp h
  rcases mem_dictSet hp with rfl | hmem
  · left; rw [← hfst]
  · right; exact List.mem_map.mpr ⟨p, hmem, hfst⟩

theorem emailOf_dictUpdate_stamped {d fields : Record} {t : String}
    (hwf : recordWF fields) (ht : truthyO (emailOf fields) = true) :
    emailOf (dictUpdate d (dictSet fields "timestamp" (Json.str t))) = emailOf fields := by
  obtain ⟨v, hv, _⟩ := truthyO_eq_true ht
  have hwf' : recordWF (dictSet fields "timestamp" (Json.str t)) :=
    recordWF_dictSet _ _ hwf
  have h1 : emailOf (dictUpdate d (dictSet fields "timestamp" (Json.str t))) =
      match emailOf (dictSet fields "timestamp" (Json.str t)) with
      | some w => some w
      | none => emailOf d := by
    unfold emailOf
    rw [dictGet_dictUpdate, lastGet_eq_dictGet hwf']
  rw [h1, emailOf_dictSet_timestamp, hv]

theorem RegistryInv_replace {l1 l2 : List Record} {d d' : Record}
    (hEq : emailOf d' = emailOf d) (h : RegistryInv (l1 ++ d :: l2)) :
    RegistryInv (l1 ++ d' :: l2) := by
  unfold RegistryInv at h ⊢
  rw [List.pairwise_append] at h ⊢
  obtain ⟨h1, h2, h3⟩ := h
  rw [List.pairwise_cons] at h2 ⊢
  refine ⟨h1, ⟨?_, h2.2⟩, ?_⟩
  · intro b hb
    rw [hEq]
    exact h2.1 b hb
  · intro a ha b hb
    rcases List.mem_cons.mp hb with rfl | hmem
    · intro hta
      rw [hEq]
      exact h3 a ha d (List.mem_cons_self _ _) hta
    · exact h3 a ha b (List.mem_cons_of_mem _ hmem)

theorem RegistryInv_append {leads : List Record} {ld : Record}
    (hInv : RegistryInv leads)
    (h : ∀ d ∈ leads, truthyO (emailOf d) = true → emailOf d ≠ emailOf ld) :
    RegistryInv (leads ++ [ld]) := by
  unfold RegistryInv at hInv ⊢
  rw [List.pairwise_append]
  refine ⟨hInv, List.pairwise_singleton _ _, ?_⟩
  intro a ha b hb
  rcases List.mem_singleton.mp hb with rfl
  exact h a ha

theorem RegistryInv_update {leads leads' : List Record} {t : String} {ld : Json}
    (hInv : RegistryInv leads) (hwf : JsonWF ld)
    (hstep : update_lead_info t ld leads = some leads') : RegistryInv leads' := by
  by_cases htr : ld.truthy = true
  · cases ld with
    | obj fields =>
      have hne : fields ≠ [] := by
        intro hc
        subst hc
        simp [Json.truthy] at htr
      have hwff : recordWF fields := hwf
      rw [update_lead_info_obj t hne, emailOf_dictSet_timestamp] at hstep
      by_cases hmail : truthyO (emailOf fields) = true
      · rw [hmail] at hstep
        simp only [if_true] at hstep
        cases hm : mergeLoop (dictSet fields "timestamp" (Json.str t)) leads with
        | some L' =>
          rw [hm] at hstep
          obtain rfl : L' = leads' := by simpa using hstep
          obtain ⟨l1, d, l2, e1, e2, e3, _⟩ := mergeLoop_eq_some hm
          subst e1
          subst e2
          apply RegistryInv_replace ?_ hInv
          rw [emailOf_dictUpdate_stamped hwff hmail, e3, emailOf_dictSet_timestamp]
        | none =>
          rw [hm] at hstep
          obtain rfl : leads ++ [dictSet fields "timestamp" (Json.str t)] = leads' := by
            simpa using hstep
          refine RegistryInv_append hInv ?_
          exact fun d hd _ => mergeLoop_eq_none_iff.mp hm d hd
      · rw [eq_false_of_ne_true hmail] at hstep
        simp only [Bool.false_eq_true, if_false] at hstep
        obtain rfl : leads ++ [dictSet fields "timestamp" (Json.str t)] = leads' := by
          simpa using hstep
        refine RegistryInv_append hInv ?_
        intro d _ htd hc
        rw [emailOf_dictSet_timestamp] at hc
        rw [hc] at htd
        exact hmail htd
    | null => simp [Json.truthy] at htr
    | bool b =>
      rw [show update_lead_info t (Json.bool b) leads =
        if (Json.bool b).truthy then none else some leads from rfl] at hstep
      rw [htr] at hstep
      simp at hstep
    | num m e =>
      rw [show update_lead_info t (Json.num m e) leads =
        if (Json.num m e).truthy then none else some leads from rfl] at hstep
      rw [htr] at hstep
      simp at hstep
    | str s =>
      rw [show update_lead_info t (Json.str s) leads =
        if (Json.str s).truthy then none else some leads from rfl] at hstep
      rw [htr] at hstep
      simp at hstep
    | arr xs =>
      rw [show update_lead_info t (Json.arr xs) leads =
        if (Json.arr xs).truthy then none else some leads from rfl] at hstep
      rw [htr] at hstep
      simp at hstep
  · rw [update_lead_info_falsy t (by simpa using htr) leads] at hstep
    obtain rfl : leads = leads' := by simpa using hstep
    exact hInv

theorem Reach_RegistryInv {leads : List Record} (h : Reach leads) : RegistryInv leads := by
  induction h with
  | nil => exact List.Pairwise.nil
  | step t ld l l' _ hwf hstep ih => exact RegistryInv_update ih hwf hstep

/-! ### Lemmas: occurrence survives extension; display equality -/

theorem isPrefixOf_append_weaken {l1 l2 : List Char} (ext : List Char)
    (h : l1.isPrefixOf l2 = true) : l1.isPrefixOf (l2 ++ ext) = true := by
  induction l1 generalizing l2 with
  | nil => simp [List.isPrefixOf]
  | cons a as ih =>
    cases l2 with
    | nil => simp [List.isPrefixOf] at h
    | cons b bs =>
      simp only [List.isPrefixOf, Bool.and_eq_true] at h
      simp only [List.cons_append, List.isPrefixOf, Bool.and_eq_true]
      exact ⟨h.1, ih h.2⟩

theorem occursAt_extend (ext : List Char) {s pat : List Char} {k : Nat}
    (h : occursAt s pat k = true) : occursAt (s ++ ext) pat k = true := by
  unfold occursAt at h ⊢
  rw [List.drop_append_eq_append_drop]
  exact isPrefixOf_append_weaken _ h

/-- The two display-truncation code paths compute the same string. -/
theorem display_eq_history (s : List Char) : display_response s = assistantHistoryDisplay s := by
  unfold display_response assistantHistoryDisplay
  cases hf : findFrom s fenceOpen 0 with
  | none => simp [pySplit, pyFind, hf]
  | some i =>
    have hne : (i : Int) ≠ -1 := by omega
    simp [pySplit, pyFind, hf, hne]

/-! ### Claim theorems -/

/-- **C1**: for every reply that contains the fence-open marker followed
later by a close marker with a syntactically valid JSON document strictly
between them (after stripping), `extract_lead_data` returns exactly the
parsed value; and for a reply with no open marker, or an open marker with
no close marker after it, or malformed JSON between the markers, it
returns the empty record. -/
theorem extract_fenced_json_spec :
    (∀ (pre mid post : List Char) (v : Json),
      (∀ k, k < pre.length →
        occursAt (pre ++ fenceOpen ++ mid ++ fenceClose ++ post) fenceOpen k = false) →
      (∀ k, k < pre.length + 7 + mid.length → pre.length + 6 ≤ k →
        occursAt (pre ++ fenceOpen ++ mid ++ fenceClose ++ post) fenceClose k = false) →
      jsonLoads (pyStrip mid) = some v →
      extract_lead_data (pre ++ fenceOpen ++ mid ++ fenceClose ++ post) = v) ∧
    (∀ (pre mid post : List Char),
      (∀ k, k < pre.length →
        occursAt (pre ++ fenceOpen ++ mid ++ fenceClose ++ post) fenceOpen k = false) →
      (∀ k, k < pre.length + 7 + mid.length → pre.length + 6 ≤ k →
        occursAt (pre ++ fenceOpen ++ mid ++ fenceClose ++ post) fenceClose k = false) →
      jsonLoads (pyStrip mid) = none →
      extract_lead_data (pre ++ fenceOpen ++ mid ++ fenceClose ++ post) = Json.obj []) ∧
    (∀ r : List Char, (∀ k, k < r.length → occursAt r fenceOpen k = false) →
      extract_lead_data r = Json.obj []) ∧
    (∀ (r : List Char) (i : Nat), occursAt r fenceOpen i = true →
      (∀ k, k < i → occursAt r fenceOpen k = false) →
      (∀ k, k < r.length → i + 6 ≤ k → occursAt r fenceClose k = false) →
      extract_lead_data r = Json.obj []) := by
  refine ⟨?_, ?_, ?_, ?_⟩
  · intro pre mid post v hopen hclose hparse
    rw [extract_lead_data_decomp pre mid post hopen (fun k h1 h2 => hclose k h2 h1), hparse]
  · intro pre mid post hopen hclose hparse
    rw [extract_lead_data_decomp pre mid post hopen (fun k h1 h2 => hclose k h2 h1), hparse]
  · intro r h
    exact extract_lead_data_no_open h
  · intro r i hocc hmin h
    exact extract_lead_data_no_close hocc hmin (fun k h1 h2 => h k h2 h1)

theorem extract_fenced_json_spec_witness :
    extract_lead_data
        ("Hi ".data ++ fenceOpen ++ "\n\x7b\"email\": \"a@b.com\"\x7d\n".data ++
          fenceClose ++ " bye".data) =
      Json.obj [("email", Json.str "a@b.com")] ∧
    extract_lead_data
        ("see ".data ++ fenceOpen ++ " not json ".data ++ fenceClose ++ "!".data) =
      Json.obj [] ∧
    extract_lead_data "hello there, no fence".data = Json.obj [] ∧
    extract_lead_data "x ```json \x7b\"a\": 1\x7d with no close".data = Json.obj [] :=
  ⟨extract_fenced_json_spec.1 _ _ _ _ (by decide) (by decide) (by rfl),
   extract_fenced_json_spec.2.1 _ _ _ (by decide) (by decide) (by rfl),
   extract_fenced_json_spec.2.2.1 _ (by decide),
   extract_fenced_json_spec.2.2.2 _ 2 (by rfl) (by decide) (by decide)⟩

/-- **C2**: on a reply containing two fenced blocks, the extractor
parses only the block between the first open marker and the first close
marker after it (whatever trailing fence content follows the close on
the same line), ignoring the later block entirely: the result equals the
result on the reply truncated after the first block. -/
theorem extract_first_block_only
    (pre mid1 midd mid2 post : List Char)
    (hopen : ∀ k, k < pre.length →
      occursAt (pre ++ fenceOpen ++ mid1 ++ fenceClose ++ midd ++ fenceOpen ++ mid2 ++
        fenceClose ++ post) fenceOpen k = false)
    (hclose : ∀ k, k < pre.length + 7 + mid1.length → pre.length + 6 ≤ k →
      occursAt (pre ++ fenceOpen ++ mid1 ++ fenceClose ++ midd ++ fenceOpen ++ mid2 ++
        fenceClose ++ post) fenceClose k = false) :
    extract_lead_data (pre ++ fenceOpen ++ mid1 ++ fenceClose ++ midd ++ fenceOpen ++ mid2 ++
        fenceClose ++ post) =
      (match jsonLoads (pyStrip mid1) with
       | some v => v
       | none => Json.obj []) ∧
    extract_lead_data (pre ++ fenceOpen ++ mid1 ++ fenceClose ++ midd ++ fenceOpen ++ mid2 ++
        fenceClose ++ post) =
      extract_lead_data (pre ++ fenceOpen ++ mid1 ++ fenceClose) := by
  have hre : pre ++ fenceOpen ++ mid1 ++ fenceClose ++ midd ++ fenceOpen ++ mid2 ++
      fenceClose ++ post =
      pre ++ fenceOpen ++ mid1 ++ fenceClose ++
        (midd ++ fenceOpen ++ mid2 ++ fenceClose ++ post) := by
    simp [List.append_assoc]
  have h1 : extract_lead_data (pre ++ fenceOpen ++ mid1 ++ fenceClose ++ midd ++ fenceOpen ++
      mid2 ++ fenceClose ++ post) =
      (match jsonLoads (pyStrip mid1) with
       | some v => v
       | none => Json.obj []) := by
    rw [hre]
    exact extract_lead_data_decomp pre mid1 _ (fun k hk => by rw [← hre]; exact hopen k hk)
      (fun k hk1 hk2 => by rw [← hre]; exact hclose k hk2 hk1)
  have hext : pre ++ fenceOpen ++ mid1 ++ fenceClose ++ midd ++ fenceOpen ++ mid2 ++
      fenceClose ++ post =
      (pre ++ fenceOpen ++ mid1 ++ fenceClose) ++
        (midd ++ fenceOpen ++ mid2 ++ fenceClose ++ post) := by
    simp [List.append_assoc]
  have h2 : extract_lead_data (pre ++ fenceOpen ++ mid1 ++ fenceClose) =
      (match jsonLoads (pyStrip mid1) with
       | some v => v
       | none => Json.obj []) := by
    have hshort : pre ++ fenceOpen ++ mid1 ++ fenceClose =
        pre ++ fenceOpen ++ mid1 ++ fenceClose ++ ([] : List Char) := by simp
    rw [hshort]
    apply extract_lead_data_decomp pre mid1 []
    · intro k hk
      by_contra hcon
      have htrue : occursAt (pre ++ fenceOpen ++ mid1 ++ fenceClose ++ ([] : List Char))
          fenceOpen k = true := by
        cases hb : occursAt (pre ++ fenceOpen ++ mid1 ++ fenceClose ++ ([] : List Char))
            fenceOpen k
        · exact absurd hb hcon
        · rfl
      rw [← hshort] at htrue
      have := occursAt_extend (midd ++ fenceOpen ++ mid2 ++ fenceClose ++ post) htrue
      rw [← hext] at this
      rw [hopen k hk] at this
      exact Bool.noConfusion this
    · intro k hk1 hk2
      by_contra hcon
      have htrue : occursAt (pre ++ fenceOpen ++ mid1 ++ fenceClose ++ ([] : List Char))
          fenceClose k = true := by
        cases hb : occursAt (pre ++ fenceOpen ++ mid1 ++ fenceClose ++ ([] : List Char))
            fenceClose k
        · exact absurd hb hcon
        · rfl
      rw [← hshort] at htrue
      have := occursAt_extend (midd ++ fenceOpen ++ mid2 ++ fenceClose ++ post) htrue
      rw [← hext] at this
      rw [hclose k hk2 hk1] at this
      exact Bool.noConfusion this
  exact ⟨h1, h1.trans h2.symm⟩

theorem extract_first_block_only_witness :
    extract_lead_data
        ("a ".data ++ fenceOpen ++ " \x7b\"a\": 1\x7d ".data ++ fenceClose ++ "` b ".data ++
          fenceOpen ++ " \x7b\"b\": 2\x7d ".data ++ fenceClose ++ "".data) =
      Json.obj [("a", Json.num 1 0)] ∧
    extract_lead_data
        ("a ".data ++ fenceOpen ++ " \x7b\"a\": 1\x7d ".data ++ fenceClose ++ "` b ".data ++
          fenceOpen ++ " \x7b\"b\": 2\x7d ".data ++ fenceClose ++ "".data) =
      extract_lead_data ("a ".data ++ fenceOpen ++ " \x7b\"a\": 1\x7d ".data ++ fenceClose) := by
  have h := extract_first_block_only "a ".data " \x7b\"a\": 1\x7d ".data "` b ".data
    " \x7b\"b\": 2\x7d ".data "".data (by decide) (by decide)
  exact ⟨h.1.trans (by rfl), h.2⟩

/-- **C3**: upserting `{email:"a@x.com", lead_quality:"warm"}` into the
empty registry and then `{email:"a@x.com", company:"Acme"}` leaves one
entry holding the union of the fields plus the latest timestamp; and in
general the upsert merges the incoming record's fields into the first
existing record with an equal email and stops scanning there. -/
theorem upsert_merge_union :
    (∀ t1 t2 : String,
      (update_lead_info t1
          (Json.obj [("email", Json.str "a@x.com"), ("lead_quality", Json.str "warm")])
          []).bind
        (update_lead_info t2
          (Json.obj [("email", Json.str "a@x.com"), ("company", Json.str "Acme")])) =
      some [[("email", Json.str "a@x.com"), ("lead_quality", Json.str "warm"),
             ("timestamp", Json.str t2), ("company", Json.str "Acme")]]) ∧
    (∀ (now : String) (fields : Record) (l1 : List Record) (d : Record) (l2 : List Record),
      fields ≠ [] →
      truthyO (emailOf (dictSet fields "timestamp" (Json.str now))) = true →
      (∀ d' ∈ l1, emailOf d' ≠ emailOf (dictSet fields "timestamp" (Json.str now))) →
      emailOf d = emailOf (dictSet fields "timestamp" (Json.str now)) →
      update_lead_info now (Json.obj fields) (l1 ++ d :: l2) =
        some (l1 ++ dictUpdate d (dictSet fields "timestamp" (Json.str now)) :: l2)) := by
  constructor
  · intro t1 t2
    rfl
  · intro now fields l1 d l2 hne ht hno hd
    rw [update_lead_info_obj now hne, ht]
    simp only [if_true]
    rw [mergeLoop_append_of _ l1 d l2 hno hd]

theorem upsert_merge_union_witness :
    (update_lead_info "T1"
        (Json.obj [("email", Json.str "a@x.com"), ("lead_quality", Json.str "warm")]) []).bind
      (update_lead_info "T2"
        (Json.obj [("email", Json.str "a@x.com"), ("company", Json.str "Acme")])) =
    some [[("email", Json.str "a@x.com"), ("lead_quality", Json.str "warm"),
           ("timestamp", Json.str "T2"), ("company", Json.str "Acme")]] ∧
    update_lead_info "T3" (Json.obj [("email", Json.str "b@x.com")])
        ([[("email", Json.str "c@x.com")], [("email", Json.str "b@x.com"),
          ("lead_quality", Json.str "cold")], [("email", Json.str "b@x.com")]]) =
      some [[("email", Json.str "c@x.com")],
            [("email", Json.str "b@x.com"), ("lead_quality", Json.str "cold"),
             ("timestamp", Json.str "T3")],
            [("email", Json.str "b@x.com")]] := by
  constructor
  · exact upsert_merge_union.1 "T1" "T2"
  · have h := upsert_merge_union.2 "T3" [("email", Json.str "b@x.com")]
      [[("email", Json.str "c@x.com")]]
      [("email", Json.str "b@x.com"), ("lead_quality", Json.str "cold")]
      [[("email", Json.str "b@x.com")]]
      (by decide) (by decide) (by decide) (by decide)
    rw [show ([[("email", Json.str "c@x.com")]] ++
      [("email", Json.str "b@x.com"), ("lead_quality", Json.str "cold")] ::
      [[("email", Json.str "b@x.com")]]) =
      ([[("email", Json.str "c@x.com")], [("email", Json.str "b@x.com"),
        ("lead_quality", Json.str "cold")], [("email", Json.str "b@x.com")]]) from rfl] at h
    rw [h]
    rfl

/-- **C4**: every registry reachable from the empty registry by upserts
has pairwise-distinct non-empty emails; a merging upsert rewrites the
matched record in place (same positional index); and a record whose
email is absent or falsy is appended as a new entry. -/
theorem registry_email_unique_invariant :
    (∀ leads : List Record, Reach leads → RegistryInv leads) ∧
    (∀ (now : String) (fields : Record) (l1 : List Record) (d : Record) (l2 : List Record),
      fields ≠ [] →
      truthyO (emailOf (dictSet fields "timestamp" (Json.str now))) = true →
      (∀ d' ∈ l1, emailOf d' ≠ emailOf (dictSet fields "timestamp" (Json.str now))) →
      emailOf d = emailOf (dictSet fields "timestamp" (Json.str now)) →
      update_lead_info now (Json.obj fields) (l1 ++ d :: l2) =
        some (l1 ++ dictUpdate d (dictSet fields "timestamp" (Json.str now)) :: l2)) ∧
    (∀ (now : String) (fields : Record) (leads : List Record),
      fields ≠ [] → truthyO (emailOf fields) = false →
      update_lead_info now (Json.obj fields) leads =
        some (leads ++ [dictSet fields "timestamp" (Json.str now)])) := by
  refine ⟨?_, ?_, ?_⟩
  · intro leads h
    exact Reach_RegistryInv h
  · intro now fields l1 d l2 hne ht hno hd
    rw [update_lead_info_obj now hne, ht]
    simp only [if_true]
    rw [mergeLoop_append_of _ l1 d l2 hno hd]
  · intro now fields leads hne hf
    exact update_obj_append_falsy now hne hf leads

theorem registry_email_unique_invariant_witness :
    RegistryInv [[("email", Json.str "e@x.com"), ("timestamp", Json.str "T")]] ∧
    update_lead_info "T2" (Json.obj [("name", Json.str "NoMail")])
        [[("email", Json.str "e@x.com")]] =
      some [[("email", Json.str "e@x.com")],
            [("name", Json.str "NoMail"), ("timestamp", Json.str "T2")]] := by
  constructor
  · apply registry_email_unique_invariant.1
    exact Reach.step "T" (Json.obj [("email", Json.str "e@x.com")]) [] _ Reach.nil
      (show recordWF [("email", Json.str "e@x.com")] by unfold recordWF; decide) (by rfl)
  · rw [registry_email_unique_invariant.2.2 "T2" [("name", Json.str "NoMail")]
      [[("email", Json.str "e@x.com")]] (by decide) (by decide)]
    rfl

/-- **C5** (code bug): the claim says the extractor always returns a
mapping and that the extract-then-upsert pipeline never fails, but for a
reply whose fenced payload is a JSON array the extractor returns that
array and `update_lead_info` raises a `TypeError` on the timestamp item
assignment (modelled as `none`). -/
theorem extract_nonmapping_pipeline_crash :
    extract_lead_data "```json\n[1, 2]\n```".data =
      Json.arr [Json.num 1 0, Json.num 2 0] ∧
    update_lead_info "2026-01-01T00:00:00"
      (extract_lead_data "```json\n[1, 2]\n```".data) [] = none ∧
    processReply "2026-01-01T00:00:00" "```json\n[1, 2]\n```".data [] = none := by
  exact ⟨by rfl, by rfl, by rfl⟩

/-- **C7**: upsert of the empty record is a no-op; upsert of a non-empty
record either appends one stamped record or rewrites exactly one record
in place, leaving all others unchanged; inside the merged record, keys
absent from the incoming record keep their values, while `timestamp` is
always overwritten with the merge-time stamp. -/
theorem upsert_frame_effect :
    (∀ (now : String) (leads : List Record),
      update_lead_info now (Json.obj []) leads = some leads) ∧
    (∀ (now : String) (fields : Record) (leads : List Record), fields ≠ [] →
      ∃ L', update_lead_info now (Json.obj fields) leads = some L' ∧
        (L' = leads ++ [dictSet fields "timestamp" (Json.str now)] ∨
          ∃ l1 d l2, leads = l1 ++ d :: l2 ∧
            L' = l1 ++ dictUpdate d (dictSet fields "timestamp" (Json.str now)) :: l2)) ∧
    (∀ (d fields : Record) (t : String) (k : String), k ≠ "timestamp" →
      dictGet fields k = none →
      dictGet (dictUpdate d (dictSet fields "timestamp" (Json.str t))) k = dictGet d k) ∧
    (∀ (d fields : Record) (t : String), recordWF fields →
      dictGet (dictUpdate d (dictSet fields "timestamp" (Json.str t))) "timestamp" =
        some (Json.str t)) := by
  refine ⟨?_, ?_, ?_, ?_⟩
  · intro now leads
    exact update_lead_info_empty now leads
  · intro now fields leads hne
    rw [update_lead_info_obj now hne]
    by_cases ht : truthyO (emailOf (dictSet fields "timestamp" (Json.str now))) = true
    · rw [ht]
      simp only [if_true]
      cases hm : mergeLoop (dictSet fields "timestamp" (Json.str now)) leads with
      | none =>
        exact ⟨leads ++ [dictSet fields "timestamp" (Json.str now)], rfl, Or.inl rfl⟩
      | some L'' =>
        obtain ⟨l1, d, l2, e1, e2, _, _⟩ := mergeLoop_eq_some hm
        exact ⟨L'', rfl, Or.inr ⟨l1, d, l2, e1, e2⟩⟩
    · rw [eq_false_of_ne_true ht]
      simp only [Bool.false_eq_true, if_false]
      exact ⟨leads ++ [dictSet fields "timestamp" (Json.str now)], rfl, Or.inl rfl⟩
  · intro d fields t k hk hnone
    rw [dictGet_dictUpdate]
    have hnot : lastGet (dictSet fields "timestamp" (Json.str t)) k = none := by
      rw [lastGet_none_iff]
      intro hmem
      rcases mem_keys_dictSet hmem with rfl | hmem2
      · exact hk rfl
      · exact (dictGet_none_iff.mp hnone) hmem2
    rw [hnot]
  · intro d fields t hwf
    rw [dictGet_dictUpdate, lastGet_eq_dictGet (recordWF_dictSet _ _ hwf),
      dictGet_dictSet_same]

theorem upsert_frame_effect_witness :
    update_lead_info "T" (Json.obj []) [[("email", Json.str "e@x.com")]] =
      some [[("email", Json.str "e@x.com")]] ∧
    dictGet (dictUpdate [("kept", Json.num 7 0)]
        (dictSet [("a", Json.null)] "timestamp" (Json.str "T"))) "kept" =
      dictGet [("kept", Json.num 7 0)] "kept" ∧
    dictGet (dictUpdate [("timestamp", Json.str "OLD")]
        (dictSet [("a", Json.null)] "timestamp" (Json.str "NEW"))) "timestamp" =
      some (Json.str "NEW") := by
  refine ⟨upsert_frame_effect.1 "T" _, ?_, ?_⟩
  · exact upsert_frame_effect.2.2.1 [("kept", Json.num 7 0)] [("a", Json.null)] "T" "kept"
      (by decide) (by rfl)
  · exact upsert_frame_effect.2.2.2 [("timestamp", Json.str "OLD")] [("a", Json.null)] "NEW"
      (by unfold recordWF; decide)

/-- **C8**: `save_leads_to_csv` signals "nothing to export" exactly when
the registry is empty, and the Export Leads button surfaces that as a
non-fatal notice; exporting a one-record registry yields the header
columns plus exactly one data row whose cell count equals the header's. -/
theorem export_empty_signal_and_single_row :
    (∀ leads : List Record, save_leads_to_csv leads = none ↔ leads = []) ∧
    (∀ leads : List Record, exportButton leads = ExportNotice.noLeads ↔ leads = []) ∧
    (∀ d : Record,
      save_leads_to_csv [d] = some (tableCols [d], [(tableCols [d]).map (dictGet d)]) ∧
      ((tableCols [d]).map (dictGet d)).length = (tableCols [d]).length) := by
  refine ⟨?_, ?_, ?_⟩
  · intro leads
    constructor
    · intro h
      by_cases he : leads.isEmpty
      · exact List.isEmpty_iff.mp he
      · rw [save_leads_to_csv, if_neg he] at h
        exact absurd h (by simp)
    · intro h
      subst h
      rfl
  · intro leads
    constructor
    · intro h
      cases hs : save_leads_to_csv leads with
      | none =>
        by_cases he : leads.isEmpty
        · exact List.isEmpty_iff.mp he
        · rw [save_leads_to_csv, if_neg he] at hs
          exact absurd hs (by simp)
      | some tab =>
        rw [exportButton, hs] at h
        exact absurd h (by simp)
    · intro h
      subst h
      rfl
  · intro d
    constructor
    · rw [save_leads_to_csv]
      simp
    · rw [List.length_map]

/-- **C6**: upsert is idempotent up to `timestamp`: on a registry with
unique non-empty emails, upserting the same well-formed non-empty record
twice merges into the same entry the second time (one entry per distinct
email, invariant preserved) and changes nothing but the timestamp; when
the record has no truthy email each call appends one new entry whose
timestamp-stripped content is the same. -/
theorem upsert_idempotent_mod_timestamp
    (L L1 L2 : List Record) (fields : Record) (t1 t2 : String)
    (hInv : RegistryInv L) (hwf : recordWF fields) (hne : fields ≠ [])
    (h1 : update_lead_info t1 (Json.obj fields) L = some L1)
    (h2 : update_lead_info t2 (Json.obj fields) L1 = some L2) :
    (truthyO (emailOf fields) = true →
      L2.map stripTimestamp = L1.map stripTimestamp ∧ L2.length = L1.length ∧
      RegistryInv L1 ∧ RegistryInv L2) ∧
    (truthyO (emailOf fields) = false →
      L1 = L ++ [dictSet fields "timestamp" (Json.str t1)] ∧
      L2 = L1 ++ [dictSet fields "timestamp" (Json.str t2)] ∧
      stripTimestamp (dictSet fields "timestamp" (Json.str t2)) =
        stripTimestamp (dictSet fields "timestamp" (Json.str t1))) := by
  have hwfJ : JsonWF (Json.obj fields) := hwf
  have hInv1 : RegistryInv L1 := RegistryInv_update hInv hwfJ h1
  have hInv2 : RegistryInv L2 := RegistryInv_update hInv1 hwfJ h2
  have hwfs1 : recordWF (dictSet fields "timestamp" (Json.str t1)) :=
    recordWF_dictSet _ _ hwf
  constructor
  · intro hmail
    have hagree1 : ∀ k v, (k, v) ∈ dictSet fields "timestamp" (Json.str t2) →
        k = "timestamp" ∨ dictGet (dictSet fields "timestamp" (Json.str t1)) k = some v := by
      intro k v hm
      rcases mem_dictSet hm with heq | hmem
      · left
        exact congrArg Prod.fst heq
      · by_cases hk : k = "timestamp"
        · left; exact hk
        · right
          rw [dictGet_dictSet_other _ _ hk]
          exact dictGet_of_mem hwf hmem
    rw [update_lead_info_obj t1 hne, emailOf_dictSet_timestamp, hmail] at h1
    simp only [if_true] at h1
    rw [update_lead_info_obj t2 hne, emailOf_dictSet_timestamp, hmail] at h2
    simp only [if_true] at h2
    cases hm1 : mergeLoop (dictSet fields "timestamp" (Json.str t1)) L with
    | some L1' =>
      rw [hm1] at h1
      have hL1 : L1 = L1' := by simpa using h1.symm
      obtain ⟨l1, d, l2, hLeq, hL1eq, e3, e4⟩ := mergeLoop_eq_some hm1
      have hee : emailOf (dictUpdate d (dictSet fields "timestamp" (Json.str t1))) =
          emailOf fields := emailOf_dictUpdate_stamped hwf hmail
      have hm2 : mergeLoop (dictSet fields "timestamp" (Json.str t2)) L1' =
          some (l1 ++ dictUpdate (dictUpdate d (dictSet fields "timestamp" (Json.str t1)))
            (dictSet fields "timestamp" (Json.str t2)) :: l2) := by
        rw [hL1eq]
        apply mergeLoop_append_of
        · intro d' hd'
          rw [emailOf_dictSet_timestamp]
          have := e4 d' hd'
          rw [emailOf_dictSet_timestamp] at this
          exact this
        · rw [hee, emailOf_dictSet_timestamp]
      rw [hL1, hm2] at h2
      have hL2 : L2 = l1 ++ dictUpdate (dictUpdate d (dictSet fields "timestamp"
          (Json.str t1))) (dictSet fields "timestamp" (Json.str t2)) :: l2 := by
        simpa using h2.symm
      have hagree : ∀ k v, (k, v) ∈ dictSet fields "timestamp" (Json.str t2) →
          k = "timestamp" ∨
          dictGet (dictUpdate d (dictSet fields "timestamp" (Json.str t1))) k = some v := by
        intro k v hm
        rcases hagree1 k v hm with hk | hget
        · left; exact hk
        · right
          rw [dictGet_dictUpdate, lastGet_eq_dictGet hwfs1, hget]
      have hstrip : stripTimestamp (dictUpdate
          (dictUpdate d (dictSet fields "timestamp" (Json.str t1)))
          (dictSet fields "timestamp" (Json.str t2))) =
          stripTimestamp (dictUpdate d (dictSet fields "timestamp" (Json.str t1))) :=
        stripTimestamp_dictUpdate hagree
      refine ⟨?_, ?_, hInv1, hInv2⟩
      · rw [hL2, hL1, hL1eq]
        simp only [List.map_append, List.map_cons, hstrip]
      · rw [hL2, hL1, hL1eq]
        simp
    | none =>
      rw [hm1] at h1
      have hL1 : L1 = L ++ [dictSet fields "timestamp" (Json.str t1)] := by
        simpa using h1.symm
      have hm2 : mergeLoop (dictSet fields "timestamp" (Json.str t2))
          (L ++ [dictSet fields "timestamp" (Json.str t1)]) =
          some (L ++ dictUpdate (dictSet fields "timestamp" (Json.str t1))
            (dictSet fields "timestamp" (Json.str t2)) :: []) := by
        apply mergeLoop_append_of
        · intro d' hd'
          rw [emailOf_dictSet_timestamp]
          have := mergeLoop_eq_none_iff.mp hm1 d' hd'
          rw [emailOf_dictSet_timestamp] at this
          exact this
        · rw [emailOf_dictSet_timestamp, emailOf_dictSet_timestamp]
      rw [hL1, hm2] at h2
      have hL2 : L2 = L ++ dictUpdate (dictSet fields "timestamp" (Json.str t1))
          (dictSet fields "timestamp" (Json.str t2)) :: [] := by
        simpa using h2.symm
      have hstrip : stripTimestamp (dictUpdate (dictSet fields "timestamp" (Json.str t1))
          (dictSet fields "timestamp" (Json.str t2))) =
          stripTimestamp (dictSet fields "timestamp" (Json.str t1)) :=
        stripTimestamp_dictUpdate hagree1
      refine ⟨?_, ?_, hInv1, hInv2⟩
      · rw [hL2, hL1]
        simp only [List.map_append, List.map_cons, List.map_nil, hstrip]
      · rw [hL2, hL1]
        simp
  · intro hmail
    rw [update_obj_append_falsy t1 hne hmail L] at h1
    have hL1 : L1 = L ++ [dictSet fields "timestamp" (Json.str t1)] := by
      simpa using h1.symm
    rw [update_obj_append_falsy t2 hne hmail L1] at h2
    have hL2 : L2 = L1 ++ [dictSet fields "timestamp" (Json.str t2)] := by
      simpa using h2.symm
    exact ⟨hL1, hL2, by rw [stripTimestamp_dictSet, stripTimestamp_dictSet]⟩

theorem upsert_idempotent_mod_timestamp_witness :
    [[("email", Json.str "a@x.com"), ("n", Json.num 1 0), ("timestamp", Json.str "T2")]].map
        stripTimestamp =
      [[("email", Json.str "a@x.com"), ("n", Json.num 1 0),
        ("timestamp", Json.str "T1")]].map stripTimestamp ∧
    RegistryInv [[("email", Json.str "a@x.com"), ("n", Json.num 1 0),
      ("timestamp", Json.str "T2")]] := by
  have h := (upsert_idempotent_mod_timestamp []
    [[("email", Json.str "a@x.com"), ("n", Json.num 1 0), ("timestamp", Json.str "T1")]]
    [[("email", Json.str "a@x.com"), ("n", Json.num 1 0), ("timestamp", Json.str "T2")]]
    [("email", Json.str "a@x.com"), ("n", Json.num 1 0)] "T1" "T2"
    List.Pairwise.nil (by unfold recordWF; decide) (by decide) (by rfl) (by rfl)).1 (by rfl)
  exact ⟨h.1, h.2.2.2⟩

/-- **C9**: an assistant reply containing the fence-open marker is
displayed truncated to the prefix strictly before the marker's first
occurrence, on both render paths; in particular the reply
`"Thanks! ```json\n{...}\n```"` is displayed as `"Thanks! "`. -/
theorem assistant_display_truncation :
    (∀ pre rest : List Char,
      (∀ k, k < pre.length → occursAt (pre ++ fenceOpen ++ rest) fenceOpen k = false) →
      assistantHistoryDisplay (pre ++ fenceOpen ++ rest) = pre ∧
      display_response (pre ++ fenceOpen ++ rest) = pre) ∧
    (assistantHistoryDisplay
        "Thanks! ```json\n\x7b\"email\":\"a@b.com\",\"lead_quality\":\"hot\"\x7d\n```".data =
      "Thanks! ".data ∧
     display_response
        "Thanks! ```json\n\x7b\"email\":\"a@b.com\",\"lead_quality\":\"hot\"\x7d\n```".data =
      "Thanks! ".data) := by
  constructor
  · intro pre rest hopen
    have hocc : occursAt (pre ++ fenceOpen ++ rest) fenceOpen pre.length = true := by
      have := occursAt_of_append pre rest fenceOpen
      simpa [List.append_assoc] using this
    have hfind : findFrom (pre ++ fenceOpen ++ rest) fenceOpen 0 = some pre.length :=
      findFrom_eq_some_of_minimal fenceOpen_ne_nil hocc (Nat.zero_le _)
        (fun k _ hk => hopen k hk)
    have hne : (pre.length : Int) ≠ -1 := by omega
    have hhist : assistantHistoryDisplay (pre ++ fenceOpen ++ rest) = pre := by
      unfold assistantHistoryDisplay
      simp only [pyFind, hfind]
      rw [if_pos hne]
      have htake : (pre ++ (fenceOpen ++ rest)).take pre.length = pre := take_len_append _ _
      simp only [Int.toNat_natCast, List.append_assoc]
      exact htake
    exact ⟨hhist, (display_eq_history _).trans hhist⟩
  · constructor
    · rfl
    · rfl

theorem assistant_display_truncation_witness :
    assistantHistoryDisplay ("Thanks! ".data ++ fenceOpen ++ "\n\x7b\x7d\n```".data) =
      "Thanks! ".data ∧
    display_response ("Thanks! ".data ++ fenceOpen ++ "\n\x7b\x7d\n```".data) =
      "Thanks! ".data :=
  assistant_display_truncation.1 "Thanks! ".data "\n\x7b\x7d\n```".data (by decide)

/-- **C10**: the two display-truncation implementations agree on every
string: taking the split-on-marker head equals truncating at the first
marker index (and showing the whole string when the marker is absent). -/
theorem display_paths_equivalent :
    ∀ s : List Char, display_response s = assistantHistoryDisplay s :=
  display_eq_history
